import Mathlib

/-!
Shallow embedding of the hierarchical conversational memory manager of the
Agentic-LLM-DnD-GM repository, together with proofs of its specification
claims.

Source files embedded here:
  - src/context/compression.py : approx_tokens, chunk_messages,
    hierarchical_summary (the LLM call summarize_chunk is modelled as an
    oracle function, and the recursion is given explicit fuel so that the
    definition is total; termination is then proved as a theorem).
  - src/memory.py : SimpleMemorySystem with add_event, check_for_cutoff,
    compress_memory, get_full_context, get_player_summary.  The llm_parse
    calls are modelled as oracle functions; a call that may raise is an
    oracle returning Except (error = the raised exception's message).
    Python methods are translated to state-passing functions: a method
    that mutates self returns the updated store.
  - src/main.py : AppState.save / AppState.load / AppState.append_memory.
    Only the memory-relevant part of AppState is modelled (the character,
    plan and image fields play no role in any memory claim); the persisted
    file STATE_SAVE_FILE is modelled as an Option JsonValue field, and
    pydantic's model_dump_json / model_validate_json pair is modelled at
    the JSON-tree level (the byte-level rendering of the tree is the
    pydantic library's concern, external to this repository).
-/

/-! ## Data model (src/memory.py) -/

/-- CutoffDecision (src/memory.py lines 14-16): the structured answer of the
cutoff oracle. -/
structure CutoffDecision where
  reason : String
  should_compress : Bool
deriving DecidableEq, Repr

/-- MemoryCompression (src/memory.py lines 19-21): the structured answer of
the merge oracle. -/
structure MemoryCompression where
  compressed_long_term : String
  session_summary : String
deriving DecidableEq, Repr

/-- SimpleMemorySystem (src/memory.py lines 24-33): long-term markdown
document, short-term event list, and compression metadata. -/
structure SimpleMemorySystem where
  long_term_memory : String
  short_term_memory : List String
  compression_count : Int
  last_compression : Option String
deriving DecidableEq, Repr

/-- add_event (src/memory.py lines 35-37): append the stripped event text to
short-term memory. -/
def SimpleMemorySystem.add_event (s : SimpleMemorySystem) (event : String) :
    SimpleMemorySystem :=
  { s with short_term_memory := s.short_term_memory ++ [event.trim] }

/-- check_for_cutoff (src/memory.py lines 39-61).  The oracle stands for the
llm_parse call; it receives the joined recent events (the varying part of the
prompt) and may raise (Except.error).  The second component of the result
counts how many times the oracle was invoked. -/
def SimpleMemorySystem.check_for_cutoff (s : SimpleMemorySystem)
    (oracle : String → Except String CutoffDecision) :
    Except String Bool × Nat :=
  if s.short_term_memory.length < 5 then
    (Except.ok false, 0)
  else
    let recent_events := String.intercalate "\n" s.short_term_memory
    match oracle recent_events with
    | Except.error e => (Except.error e, 1)
    | Except.ok decision => (Except.ok decision.should_compress, 1)

/-- compress_memory (src/memory.py lines 63-114).  The oracle stands for the
llm_parse call inside the try block; it receives the current long-term memory
and the joined short-term memory (the varying parts of the prompt) and may
raise (Except.error), in which case the except-branch returns false with the
store untouched.  short_term_memory[-3:] is List.drop (length - 3). -/
def SimpleMemorySystem.compress_memory (s : SimpleMemorySystem)
    (oracle : String → String → Except String MemoryCompression)
    (now : String) : Bool × SimpleMemorySystem :=
  if s.short_term_memory.isEmpty then
    (false, s)
  else
    let current_short_term := String.intercalate "\n" s.short_term_memory
    match oracle s.long_term_memory current_short_term with
    | Except.error _ => (false, s)
    | Except.ok compression =>
        (true,
          { long_term_memory := compression.compressed_long_term
            short_term_memory :=
              s.short_term_memory.drop (s.short_term_memory.length - 3)
            compression_count := s.compression_count + 1
            last_compression := some now })

/-- get_full_context (src/memory.py lines 116-134), translated to
state-passing form: the returned store is the post-state of self (the method
performs no field assignment, so it is s itself). -/
def SimpleMemorySystem.get_full_context (s : SimpleMemorySystem) :
    String × SimpleMemorySystem :=
  let recent_events :=
    if s.short_term_memory.isEmpty then "No recent events."
    else String.intercalate "\n" s.short_term_memory
  if s.long_term_memory = "" then
    ("# CAMPAIGN MEMORY\n\n## Recent Events  \n" ++ recent_events ++ "\n", s)
  else
    ("# CAMPAIGN MEMORY\n\n## Long-term Memory\n" ++ s.long_term_memory ++
      "\n\n## Recent Events\n" ++ recent_events ++ "\n", s)

/-- get_player_summary (src/memory.py lines 136-138), in the same
state-passing form. -/
def SimpleMemorySystem.get_player_summary (s : SimpleMemorySystem) :
    String × SimpleMemorySystem :=
  if s.long_term_memory = "" then
    ("Campaign just started - no major events yet.", s)
  else
    (s.long_term_memory, s)

/-! ## Token estimation and chunking (src/context/compression.py) -/

/-- Message: the duck-typed record shape of src/context/compression.py, an
explicit record with role and content fields. -/
structure Message where
  role : String
  content : String
deriving DecidableEq, Repr

/-- approx_tokens (src/context/compression.py lines 25-30), tiktoken-less
fallback branch: max(1, len(text) // 4). -/
def approx_tokens (text : String) : Nat :=
  max 1 (text.length / 4)

/-- Loop body of chunk_messages (src/context/compression.py lines 37-49).
The accumulator acc holds the already-closed chunks, cur is chunks[-1] (the
chunk currently being filled) and current_tokens the running total. -/
def chunkLoop (max_tokens : Nat) :
    List Message → List (List Message) → List Message → Nat →
    List (List Message)
  | [], acc, cur, _ => acc ++ [cur]
  | msg :: rest, acc, cur, current_tokens =>
      let msg_tokens := approx_tokens msg.content
      if current_tokens + msg_tokens > max_tokens ∧ cur ≠ [] then
        chunkLoop max_tokens rest (acc ++ [cur]) [msg] msg_tokens
      else
        chunkLoop max_tokens rest acc (cur ++ [msg]) (current_tokens + msg_tokens)

/-- chunk_messages (src/context/compression.py lines 37-49): greedy forward
packing starting from the single empty chunk [[]] with zero running tokens. -/
def chunk_messages (messages : List Message) (max_tokens : Nat) :
    List (List Message) :=
  chunkLoop max_tokens messages [] [] 0

/-- Estimated token sum of one chunk (sum of approx_tokens over contents). -/
def tokenSum (chunk : List Message) : Nat :=
  (chunk.map (fun m => approx_tokens m.content)).sum

/-- Total content length of a record list (length of the concatenated
contents), the termination measure of hierarchical_summary. -/
def contentLen (messages : List Message) : Nat :=
  (messages.map (fun m => m.content.length)).sum

/-! ## Hierarchical summarization (src/context/compression.py lines 72-83)

summarize_chunk is an external LLM call; it is modelled as an oracle
function from a chunk to its summary string.  The Python recursion carries
no structural decrease, so the embedding takes explicit fuel and returns
none when the fuel runs out; termination of the source recursion is the
statement that some finite fuel suffices. -/

/-- hierarchical_summary (src/context/compression.py lines 72-83), with
fuel.  chunk the messages; summarize each chunk through the oracle; if
exactly one summary resulted return it, otherwise recurse on the summaries
repackaged as system-role messages. -/
def hierarchical_summary (oracle : List Message → String) (chunk_tokens : Nat) :
    Nat → List Message → Option String
  | 0, _ => none
  | fuel + 1, messages =>
      let chunks := chunk_messages messages chunk_tokens
      let summaries := chunks.map oracle
      match summaries with
      | [s] => some s
      | ss =>
          hierarchical_summary oracle chunk_tokens fuel
            (ss.map (fun s => { role := "system", content := s }))

/-- One recursion step of hierarchical_summary: the summaries of the chunks,
repackaged as system-role messages. -/
def nextMessages (oracle : List Message → String) (chunk_tokens : Nat)
    (messages : List Message) : List Message :=
  ((chunk_messages messages chunk_tokens).map oracle).map
    (fun s => { role := "system", content := s })

/-- Reachability along the recursion of hierarchical_summary: the message
lists the recursion visits starting from a given one.  A step is taken
exactly when the number of summaries (= number of chunks) is not 1. -/
inductive Reaches (oracle : List Message → String) (chunk_tokens : Nat) :
    List Message → List Message → Prop where
  | refl (m : List Message) : Reaches oracle chunk_tokens m m
  | step (m m' : List Message) :
      (chunk_messages m chunk_tokens).length ≠ 1 →
      Reaches oracle chunk_tokens (nextMessages oracle chunk_tokens m) m' →
      Reaches oracle chunk_tokens m m'

/-! ## Persistence (src/main.py)

AppState.save writes self.model_dump_json to STATE_SAVE_FILE and
AppState.load reads it back through model_validate_json.  pydantic's JSON
dump/validate pair is modelled at the JSON-tree level: JsonValue is the
parsed JSON document, memory_dump is what model_dump_json produces for the
memory field, and memory_validate is pydantic's validation of that field
(type-checking each member, falling back to the field defaults of
SimpleMemorySystem when a member is absent). -/

/-- Parsed JSON document tree. -/
inductive JsonValue where
  | null : JsonValue
  | str (s : String) : JsonValue
  | num (n : Int) : JsonValue
  | arr (elems : List JsonValue) : JsonValue
  | obj (members : List (String × JsonValue)) : JsonValue

/-- First member of a JSON object with the given key, if any. -/
def lookupMember : List (String × JsonValue) → String → Option JsonValue
  | [], _ => none
  | (k, v) :: rest, key => if k = key then some v else lookupMember rest key

/-- Validation of a JSON value against the type str. -/
def asStr : JsonValue → Option String
  | JsonValue.str s => some s
  | _ => none

/-- Validation of a JSON value against the type list[str]. -/
def asStrList : JsonValue → Option (List String)
  | JsonValue.arr elems =>
      elems.foldr
        (fun v acc => match v, acc with
          | JsonValue.str s, some ss => some (s :: ss)
          | _, _ => none)
        (some [])
  | _ => none

/-- Validation of a JSON value against the type int. -/
def asInt : JsonValue → Option Int
  | JsonValue.num n => some n
  | _ => none

/-- Validation of a JSON value against the type Optional[str]. -/
def asOptStr : JsonValue → Option (Option String)
  | JsonValue.null => some none
  | JsonValue.str s => some (some s)
  | _ => none

/-- model_dump of the memory field of AppState (the SimpleMemorySystem part
of the snapshot written by AppState.save, src/main.py lines 418-419). -/
def memory_dump (s : SimpleMemorySystem) : JsonValue :=
  JsonValue.obj
    [("long_term_memory", JsonValue.str s.long_term_memory),
     ("short_term_memory", JsonValue.arr (s.short_term_memory.map JsonValue.str)),
     ("compression_count", JsonValue.num s.compression_count),
     ("last_compression",
       match s.last_compression with
       | none => JsonValue.null
       | some t => JsonValue.str t)]

/-- model_validate of the memory field (the SimpleMemorySystem part of
AppState.load, src/main.py lines 421-424): each member is type-checked, an
absent member takes the pydantic field default, a non-object or ill-typed
document is rejected. -/
def memory_validate (j : JsonValue) : Option SimpleMemorySystem :=
  match j with
  | JsonValue.obj members => do
      let lt ←
        match lookupMember members "long_term_memory" with
        | none => some ""
        | some v => asStr v
      let st ←
        match lookupMember members "short_term_memory" with
        | none => some []
        | some v => asStrList v
      let cc ←
        match lookupMember members "compression_count" with
        | none => some (0 : Int)
        | some v => asInt v
      let lc ←
        match lookupMember members "last_compression" with
        | none => some none
        | some v => asOptStr v
      some { long_term_memory := lt, short_term_memory := st,
             compression_count := cc, last_compression := lc }
  | _ => none

/-- Memory-relevant part of AppState (src/main.py lines 411-416): the
in-memory store and the contents of STATE_SAVE_FILE (none when the file does
not exist).  The character, plan and image fields of AppState take no part
in any memory operation and are omitted. -/
structure AppStateM where
  memory : SimpleMemorySystem
  stored : Option JsonValue

/-- AppState.save (src/main.py lines 418-419): write the dump of the current
state to STATE_SAVE_FILE. -/
def AppStateM.save (st : AppStateM) : AppStateM :=
  { st with stored := some (memory_dump st.memory) }

/-- Memory part of AppState.load (src/main.py lines 421-424): when the save
file exists, validate it back into a store. -/
def AppStateM.load_memory (st : AppStateM) : Option SimpleMemorySystem :=
  st.stored.bind memory_validate

/-- AppState.append_memory (src/main.py lines 450-453): add the event to the
memory store, then save. -/
def AppStateM.append_memory (st : AppStateM) (event : String) : AppStateM :=
  AppStateM.save { st with memory := st.memory.add_event event }

/-- compress_memory invoked on the memory field of the application state.
Neither SimpleMemorySystem.compress_memory nor any caller in the repository
performs a save around this call, so the stored field is untouched by
construction of compress_memory, which has no access to storage. -/
def AppStateM.compress_memory (st : AppStateM)
    (oracle : String → String → Except String MemoryCompression)
    (now : String) : Bool × AppStateM :=
  let r := st.memory.compress_memory oracle now
  (r.1, { st with memory := r.2 })

/-! ## Lemmas about the chunker -/

/-- tokenSum distributes over append. -/
theorem tokenSum_append (a b : List Message) :
    tokenSum (a ++ b) = tokenSum a + tokenSum b := by
  simp [tokenSum]

/-- Flattening the result of chunkLoop recovers the closed chunks, the
current chunk and the unprocessed messages, in order. -/
theorem chunkLoop_flatten (max_tokens : Nat) (msgs : List Message) :
    ∀ acc cur current_tokens,
      (chunkLoop max_tokens msgs acc cur current_tokens).flatten =
        acc.flatten ++ cur ++ msgs := by
  induction msgs with
  | nil => intro acc cur current_tokens; simp [chunkLoop]
  | cons msg rest ih =>
      intro acc cur current_tokens
      simp only [chunkLoop]
      split
      · rw [ih]; simp
      · rw [ih]; simp

/-- chunkLoop never returns the empty list of chunks. -/
theorem chunkLoop_ne_nil (max_tokens : Nat) (msgs : List Message) :
    ∀ acc cur current_tokens,
      chunkLoop max_tokens msgs acc cur current_tokens ≠ [] := by
  induction msgs with
  | nil => intro acc cur current_tokens; simp [chunkLoop]
  | cons msg rest ih =>
      intro acc cur current_tokens
      simp only [chunkLoop]
      split
      · exact ih _ _ _
      · exact ih _ _ _

/-- When every already-closed chunk is non-empty and the current chunk is
non-empty, every chunk chunkLoop returns is non-empty. -/
theorem chunkLoop_all_ne_nil (max_tokens : Nat) (msgs : List Message) :
    ∀ acc cur current_tokens, (∀ c ∈ acc, c ≠ []) → cur ≠ [] →
      ∀ c ∈ chunkLoop max_tokens msgs acc cur current_tokens, c ≠ [] := by
  induction msgs with
  | nil =>
      intro acc cur current_tokens hAcc hCur c hc
      simp only [chunkLoop, List.mem_append, List.mem_singleton] at hc
      rcases hc with hc | hc
      · exact hAcc c hc
      · exact hc ▸ hCur
  | cons msg rest ih =>
      intro acc cur current_tokens hAcc hCur c hc
      simp only [chunkLoop] at hc
      split at hc
      · refine ih _ _ _ ?_ (by simp) c hc
        intro d hd
        rcases List.mem_append.mp hd with hd | hd
        · exact hAcc d hd
        · simpa using (List.mem_singleton.mp hd) ▸ hCur
      · exact ih _ _ _ hAcc (by simp) c hc

/-- Budget invariant of one chunk: within budget, or a single oversized
record alone. -/
def chunkOK (max_tokens : Nat) (c : List Message) : Prop :=
  tokenSum c ≤ max_tokens ∨ ∃ m, c = [m] ∧ max_tokens < approx_tokens m.content

/-- A single record always forms a chunkOK chunk. -/
theorem chunkOK_singleton (max_tokens : Nat) (m : Message) :
    chunkOK max_tokens [m] := by
  by_cases h : approx_tokens m.content ≤ max_tokens
  · left; simpa [tokenSum] using h
  · right; exact ⟨m, rfl, by omega⟩

/-- chunkLoop preserves the budget invariant. -/
theorem chunkLoop_bound (max_tokens : Nat) (msgs : List Message) :
    ∀ acc cur current_tokens, (∀ c ∈ acc, chunkOK max_tokens c) →
      current_tokens = tokenSum cur → chunkOK max_tokens cur →
      ∀ c ∈ chunkLoop max_tokens msgs acc cur current_tokens,
        chunkOK max_tokens c := by
  induction msgs with
  | nil =>
      intro acc cur current_tokens hAcc _ hCur c hc
      simp only [chunkLoop, List.mem_append, List.mem_singleton] at hc
      rcases hc with hc | hc
      · exact hAcc c hc
      · exact hc ▸ hCur
  | cons msg rest ih =>
      intro acc cur current_tokens hAcc hct hCur c hc
      simp only [chunkLoop] at hc
      split at hc
      · refine ih _ _ _ ?_ (by simp [tokenSum]) (chunkOK_singleton _ _) c hc
        intro d hd
        rcases List.mem_append.mp hd with hd | hd
        · exact hAcc d hd
        · exact (List.mem_singleton.mp hd) ▸ hCur
      · rename_i hcond
        rcases not_and_or.mp hcond with hle | hnil
        · refine ih _ _ _ hAcc (by simp [tokenSum_append, tokenSum, hct]) ?_ c hc
          left
          rw [tokenSum_append, ← hct]
          simpa [tokenSum] using Nat.le_of_not_lt hle
        · have : cur = [] := by
            by_contra hne; exact hnil hne
          subst this
          have hz : current_tokens = 0 := by simpa [tokenSum] using hct
          subst hz
          refine ih _ _ _ hAcc (by simp [tokenSum]) ?_ c hc
          simpa using chunkOK_singleton max_tokens msg

/-- On a non-empty input the loop starts by placing the first message into
the (empty) first chunk. -/
theorem chunk_messages_cons (msg : Message) (rest : List Message)
    (max_tokens : Nat) :
    chunk_messages (msg :: rest) max_tokens =
      chunkLoop max_tokens rest [] [msg] (approx_tokens msg.content) := by
  simp [chunk_messages, chunkLoop]

/-- Flattening the chunks recovers the input, for every input. -/
theorem chunk_messages_flatten (messages : List Message) (max_tokens : Nat) :
    (chunk_messages messages max_tokens).flatten = messages := by
  simpa using chunkLoop_flatten max_tokens messages [] [] 0

/-- C3: For every non-empty sequence of records and every max_tokens,
concatenating the chunks returned by chunk_messages, in order, yields
exactly the input sequence: no record is lost, duplicated, or reordered,
within or across chunks. -/
theorem chunk_messages_concat (messages : List Message) (max_tokens : Nat)
    (hne : messages ≠ []) :
    (chunk_messages messages max_tokens).flatten = messages :=
  chunk_messages_flatten messages max_tokens

/-- Witness for C3 at a concrete two-record input. -/
theorem chunk_messages_concat_witness :
    ([⟨"user", "hello"⟩, ⟨"assistant", "world"⟩] : List Message) ≠ [] ∧
      (chunk_messages [⟨"user", "hello"⟩, ⟨"assistant", "world"⟩] 1500).flatten =
        [⟨"user", "hello"⟩, ⟨"assistant", "world"⟩] :=
  ⟨by decide, chunk_messages_concat _ 1500 (by decide)⟩

/-- C2: For every sequence of records and every max_tokens, every chunk
produced by chunk_messages has an estimated token sum at most max_tokens,
except that a chunk may exceed the budget only when it is exactly one
oversized record placed alone in its own chunk. -/
theorem chunk_messages_token_bound (messages : List Message)
    (max_tokens : Nat) :
    ∀ c ∈ chunk_messages messages max_tokens,
      tokenSum c ≤ max_tokens ∨
        ∃ m, c = [m] ∧ max_tokens < approx_tokens m.content := by
  intro c hc
  exact chunkLoop_bound max_tokens messages [] [] 0 (by simp)
    (by simp [tokenSum]) (Or.inl (by simp [tokenSum])) c hc

/-- Witness for C2: a single 8-character record (2 estimated tokens) with
budget 1 sits alone in its own chunk, oversized. -/
theorem chunk_messages_token_bound_witness :
    ([⟨"user", "abcdefgh"⟩] : List Message) ∈ chunk_messages [⟨"user", "abcdefgh"⟩] 1 ∧
      (tokenSum [⟨"user", "abcdefgh"⟩] ≤ 1 ∨
        ∃ m, ([⟨"user", "abcdefgh"⟩] : List Message) = [m] ∧
          1 < approx_tokens m.content) :=
  ⟨by decide, chunk_messages_token_bound [⟨"user", "abcdefgh"⟩] 1 _ (by decide)⟩

/-- C8: chunk_messages always returns at least one chunk; every chunk after
the first is non-empty; the first chunk is empty exactly when the input is
empty, and an empty input yields exactly one empty chunk. -/
theorem chunk_messages_shape (messages : List Message) (max_tokens : Nat) :
    chunk_messages messages max_tokens ≠ [] ∧
      (∀ c ∈ (chunk_messages messages max_tokens).tail, c ≠ []) ∧
      ((chunk_messages messages max_tokens).head? = some [] ↔ messages = []) ∧
      (messages = [] → chunk_messages messages max_tokens = [[]]) := by
  cases messages with
  | nil =>
      refine ⟨by simp [chunk_messages, chunkLoop], ?_, ?_, ?_⟩
      · simp [chunk_messages, chunkLoop]
      · simp [chunk_messages, chunkLoop]
      · intro _; simp [chunk_messages, chunkLoop]
  | cons msg rest =>
      have hall : ∀ c ∈ chunk_messages (msg :: rest) max_tokens, c ≠ [] := by
        rw [chunk_messages_cons]
        exact chunkLoop_all_ne_nil max_tokens rest [] [msg]
          (approx_tokens msg.content) (by simp) (by simp)
      refine ⟨?_, ?_, ?_, ?_⟩
      · rw [chunk_messages_cons]; exact chunkLoop_ne_nil _ _ _ _ _
      · intro c hc; exact hall c (List.mem_of_mem_tail hc)
      · constructor
        · intro h
          exact absurd rfl (hall [] (List.mem_of_mem_head? h))
        · intro h; cases h
      · intro h; cases h

/-- Witness for C8: the empty input yields exactly one empty chunk. -/
theorem chunk_messages_shape_witness :
    chunk_messages ([] : List Message) 1500 = [[]] :=
  (chunk_messages_shape [] 1500).2.2.2 rfl

/-! ## Claims about the memory store -/

/-- C1: For every memory store and every oracle behavior, compress_memory
either (a) returns true, replaces long_term_memory with the oracle's
compressed document, truncates short_term_memory to its last 3 events
(the [-3:] slice), increments compression_count by exactly 1 and stamps
last_compression, or (b) returns false and leaves every field of the store
unchanged; in particular when the oracle raises, nothing is modified. -/
theorem compress_memory_all_or_nothing (s : SimpleMemorySystem)
    (oracle : String → String → Except String MemoryCompression)
    (now : String) :
    ((s.compress_memory oracle now).1 = true ∧
      ∃ compression,
        oracle s.long_term_memory
            (String.intercalate "\n" s.short_term_memory) =
          Except.ok compression ∧
        (s.compress_memory oracle now).2 =
          { long_term_memory := compression.compressed_long_term,
            short_term_memory :=
              s.short_term_memory.drop (s.short_term_memory.length - 3),
            compression_count := s.compression_count + 1,
            last_compression := some now }) ∨
    ((s.compress_memory oracle now).1 = false ∧
      (s.compress_memory oracle now).2 = s) := by
  by_cases he : s.short_term_memory.isEmpty
  · right
    constructor <;> simp [SimpleMemorySystem.compress_memory, he]
  · rcases ho : oracle s.long_term_memory
        (String.intercalate "\n" s.short_term_memory) with e | compression
    · right
      constructor <;> simp [SimpleMemorySystem.compress_memory, he, ho]
    · left
      refine ⟨by simp [SimpleMemorySystem.compress_memory, he, ho], compression,
        rfl, by simp [SimpleMemorySystem.compress_memory, he, ho]⟩

/-- C5: For every store whose short_term_memory has fewer than 5 events and
every oracle behavior, check_for_cutoff returns false and the oracle is
invoked zero times. -/
theorem check_for_cutoff_below_min (s : SimpleMemorySystem)
    (oracle : String → Except String CutoffDecision)
    (h : s.short_term_memory.length < 5) :
    s.check_for_cutoff oracle = (Except.ok false, 0) := by
  simp [SimpleMemorySystem.check_for_cutoff, h]

/-- Witness for C5 at a concrete 4-event store and an oracle that would
raise if reached. -/
theorem check_for_cutoff_below_min_witness :
    (["a", "b", "c", "d"] : List String).length < 5 ∧
      SimpleMemorySystem.check_for_cutoff
        { long_term_memory := "", short_term_memory := ["a", "b", "c", "d"],
          compression_count := 0, last_compression := none }
        (fun _ => Except.error "oracle must not be called") =
        (Except.ok false, 0) :=
  ⟨by decide, check_for_cutoff_below_min _ _ (by decide)⟩

/-- C9: get_full_context and get_player_summary are pure reads: the
post-state of the store (its long_term_memory, short_term_memory,
compression_count and last_compression) is the pre-state. -/
theorem get_context_and_summary_pure (s : SimpleMemorySystem) :
    (s.get_full_context).2 = s ∧ (s.get_player_summary).2 = s := by
  constructor
  · unfold SimpleMemorySystem.get_full_context
    split <;> split <;> rfl
  · unfold SimpleMemorySystem.get_player_summary
    split <;> rfl

/-- C10: compress_memory does not enforce the 5-event policy minimum: for
every non-empty short-term log (including fewer than 5 events) and a
succeeding oracle it returns true; the retained tail is the last min(3, n)
events (all of them when n ≤ 3), so a successful compression never empties
short-term memory. -/
theorem compress_memory_no_minimum (s : SimpleMemorySystem)
    (oracle : String → String → Except String MemoryCompression)
    (now : String) (compression : MemoryCompression)
    (hne : s.short_term_memory ≠ [])
    (hok : oracle s.long_term_memory
        (String.intercalate "\n" s.short_term_memory) =
      Except.ok compression) :
    (s.compress_memory oracle now).1 = true ∧
      (s.compress_memory oracle now).2.short_term_memory =
        s.short_term_memory.drop (s.short_term_memory.length - 3) ∧
      (s.short_term_memory.length ≤ 3 →
        (s.compress_memory oracle now).2.short_term_memory =
          s.short_term_memory) ∧
      (s.compress_memory oracle now).2.short_term_memory ≠ [] := by
  have he : ¬ s.short_term_memory.isEmpty := by
    simpa [List.isEmpty_iff] using hne
  refine ⟨by simp [SimpleMemorySystem.compress_memory, he, hok], ?_, ?_, ?_⟩
  · simp [SimpleMemorySystem.compress_memory, he, hok]
  · intro h3
    have : s.short_term_memory.length - 3 = 0 := by omega
    simp [SimpleMemorySystem.compress_memory, he, hok, this]
  · have hlen : 0 < s.short_term_memory.length := List.length_pos.mpr hne
    have : ((s.compress_memory oracle now).2.short_term_memory).length =
        s.short_term_memory.length - (s.short_term_memory.length - 3) := by
      simp [SimpleMemorySystem.compress_memory, he, hok]
    intro hnil
    rw [hnil] at this
    simp at this
    omega

/-- Concrete 2-event store used by the C10 witness. -/
def memAB : SimpleMemorySystem :=
  { long_term_memory := "", short_term_memory := ["a", "b"],
    compression_count := 0, last_compression := none }

/-- Concrete always-succeeding merge oracle. -/
def oracleOkXY : String → String → Except String MemoryCompression :=
  fun _ _ =>
    Except.ok { compressed_long_term := "X", session_summary := "Y" }

/-- Witness for C10: a 2-event store compresses successfully and keeps both
events. -/
theorem compress_memory_no_minimum_witness :
    memAB.short_term_memory ≠ [] ∧
      oracleOkXY memAB.long_term_memory
          (String.intercalate "\n" memAB.short_term_memory) =
        Except.ok { compressed_long_term := "X", session_summary := "Y" } ∧
      (memAB.compress_memory oracleOkXY "T").1 = true ∧
      (memAB.compress_memory oracleOkXY "T").2.short_term_memory =
        memAB.short_term_memory := by
  refine ⟨by decide, rfl, ?_, ?_⟩
  · exact (compress_memory_no_minimum memAB oracleOkXY "T" _ (by decide) rfl).1
  · exact (compress_memory_no_minimum memAB oracleOkXY "T" _
      (by decide) rfl).2.2.1 (by decide)

/-! ## Persistence claims -/

/-- Validating a JSON array of strings built from a string list recovers the
list. -/
theorem asStrList_map_str (l : List String) :
    asStrList (JsonValue.arr (l.map JsonValue.str)) = some l := by
  induction l with
  | nil => rfl
  | cons s rest ih =>
      simp only [asStrList, List.map_cons, List.foldr_cons] at ih ⊢
      rw [ih]

/-- Validation is a left inverse of the dump of the memory field. -/
theorem memory_validate_dump (s : SimpleMemorySystem) :
    memory_validate (memory_dump s) = some s := by
  cases s with
  | mk lt st cc lc =>
      cases lc with
      | none =>
          simp [memory_validate, memory_dump, lookupMember, asStr, asInt,
            asOptStr, asStrList_map_str]
      | some t =>
          simp [memory_validate, memory_dump, lookupMember, asStr, asInt,
            asOptStr, asStrList_map_str]

/-- C7: For every store state, saving the snapshot and then loading it
yields a store whose long_term_memory, short_term_memory and
compression_count (and last_compression) are identical to the originals. -/
theorem save_load_roundtrip (st : AppStateM) :
    (st.save).load_memory = some st.memory := by
  simp [AppStateM.save, AppStateM.load_memory, memory_validate_dump]

/-- C6 (amended): AppState.append_memory appends the trimmed event text via
add_event and then persists the snapshot of the updated memory; but
compress_memory performs no persistence at all: the stored snapshot is
unchanged by a compress, successful or not (and no caller of compress_memory
in the repository saves around it). -/
theorem append_memory_persists_compress_memory_does_not
    (st : AppStateM) (event : String)
    (oracle : String → String → Except String MemoryCompression)
    (now : String) :
    (st.append_memory event).stored =
      some (memory_dump (st.memory.add_event event)) ∧
      (st.append_memory event).memory = st.memory.add_event event ∧
      (st.compress_memory oracle now).2.stored = st.stored := by
  exact ⟨rfl, rfl, rfl⟩

/-- Concrete 6-event store used by the C6 counterexample. -/
def memSix : SimpleMemorySystem :=
  { long_term_memory := "", short_term_memory := ["a", "b", "c", "d", "e", "f"],
    compression_count := 0, last_compression := none }

/-- Concrete application state whose save file holds the snapshot of
memSix. -/
def stSix : AppStateM :=
  { memory := memSix, stored := some (memory_dump memSix) }

/-- Concrete always-succeeding merge oracle for the C6 counterexample. -/
def oracleSix : String → String → Except String MemoryCompression :=
  fun _ _ =>
    Except.ok { compressed_long_term := "NEW", session_summary := "S" }

/-- Counterexample to C6 as stated: a successful compress does not persist
the snapshot — the stored snapshot still holds the pre-compress memory and
differs from the dump of the post-compress memory. -/
theorem compress_memory_not_persisted :
    (stSix.compress_memory oracleSix "T").1 = true ∧
      (stSix.compress_memory oracleSix "T").2.stored =
        some (memory_dump memSix) ∧
      (stSix.compress_memory oracleSix "T").2.stored ≠
        some (memory_dump ((stSix.compress_memory oracleSix "T").2.memory)) := by
  refine ⟨rfl, rfl, ?_⟩
  intro h
  have h2 : memory_dump memSix =
      memory_dump ((stSix.compress_memory oracleSix "T").2.memory) := by
    have h1 :
        (stSix.compress_memory oracleSix "T").2.stored =
          some (memory_dump memSix) := rfl
    rw [h1] at h
    injection h
  have h3 : ((stSix.compress_memory oracleSix "T").2.memory).long_term_memory =
      "NEW" := rfl
  simp [memory_dump, memSix, h3] at h2

/-! ## Termination of hierarchical_summary (C4) -/

/-- contentLen distributes over append. -/
theorem contentLen_append (a b : List Message) :
    contentLen (a ++ b) = contentLen a + contentLen b := by
  simp [contentLen]

/-- contentLen of a flattened chunk list is the sum of the chunk
contentLens. -/
theorem contentLen_flatten (L : List (List Message)) :
    contentLen L.flatten = (L.map contentLen).sum := by
  induction L with
  | nil => simp [contentLen]
  | cons c rest ih => simp [contentLen_append, ih]

/-- Total content of a message list is the sum of the contents of its
chunks. -/
theorem contentLen_chunks (messages : List Message) (chunk_tokens : Nat) :
    ((chunk_messages messages chunk_tokens).map contentLen).sum =
      contentLen messages := by
  rw [← contentLen_flatten, chunk_messages_flatten]

/-- Total content of the next recursion level is the sum of the summary
lengths over the chunks. -/
theorem contentLen_nextMessages (oracle : List Message → String)
    (chunk_tokens : Nat) (messages : List Message) :
    contentLen (nextMessages oracle chunk_tokens messages) =
      ((chunk_messages messages chunk_tokens).map
        (fun c => (oracle c).length)).sum := by
  simp only [nextMessages, contentLen, List.map_map]
  rfl

/-- With enough fuel (any bound above the total content length), the
recursion returns a summary provided the oracle output is strictly shorter
than the chunk content on every reachable level. -/
theorem hierarchical_summary_aux (oracle : List Message → String)
    (chunk_tokens : Nat) :
    ∀ N messages, contentLen messages < N →
      (∀ m', Reaches oracle chunk_tokens messages m' →
        ∀ c ∈ chunk_messages m' chunk_tokens,
          (oracle c).length < contentLen c) →
      ∃ fuel s,
        hierarchical_summary oracle chunk_tokens fuel messages = some s := by
  intro N
  induction N with
  | zero => intro messages hlt _; omega
  | succ N ih =>
      intro messages hlt H
      cases hsum : (chunk_messages messages chunk_tokens).map oracle with
      | nil =>
          exact absurd (List.map_eq_nil_iff.mp hsum)
            (chunkLoop_ne_nil _ _ _ _ _)
      | cons s1 rest =>
          cases rest with
          | nil =>
              exact ⟨1, s1, by simp [hierarchical_summary, hsum]⟩
          | cons s2 rest2 =>
              have hlen1 :
                  (chunk_messages messages chunk_tokens).length ≠ 1 := by
                have hmap :=
                  List.length_map (chunk_messages messages chunk_tokens) oracle
                rw [hsum] at hmap
                simp at hmap
                omega
              have hstep : ∀ c ∈ chunk_messages messages chunk_tokens,
                  (oracle c).length < contentLen c :=
                H messages (Reaches.refl messages)
              have hchne : chunk_messages messages chunk_tokens ≠ [] :=
                chunkLoop_ne_nil _ _ _ _ _
              have hdec :
                  contentLen (nextMessages oracle chunk_tokens messages) <
                    contentLen messages := by
                rw [contentLen_nextMessages, ← contentLen_chunks messages chunk_tokens]
                exact List.sum_lt_sum_of_ne_nil hchne _ _ hstep
              have H' : ∀ m',
                  Reaches oracle chunk_tokens
                    (nextMessages oracle chunk_tokens messages) m' →
                  ∀ c ∈ chunk_messages m' chunk_tokens,
                    (oracle c).length < contentLen c :=
                fun m' hr => H m' (Reaches.step messages m' hlen1 hr)
              obtain ⟨fuel, s, hs⟩ :=
                ih (nextMessages oracle chunk_tokens messages) (by omega) H'
              refine ⟨fuel + 1, s, ?_⟩
              have hunfold :
                  hierarchical_summary oracle chunk_tokens (fuel + 1) messages =
                    hierarchical_summary oracle chunk_tokens fuel
                      ((s1 :: s2 :: rest2).map
                        (fun t => { role := "system", content := t })) := by
                simp [hierarchical_summary, hsum]
              have hnext :
                  nextMessages oracle chunk_tokens messages =
                    (s1 :: s2 :: rest2).map
                      (fun t => ({ role := "system", content := t } : Message)) := by
                simp [nextMessages, hsum]
              rw [hunfold, ← hnext]
              exact hs

/-- C4: For every finite non-empty sequence of records and every chunk
budget, if the oracle's summary of a chunk is always (at every level the
recursion reaches) strictly shorter than the concatenated content of that
chunk, then hierarchical_summary terminates — some finite fuel yields a
single summary string — and in the base case of a single chunk that string
is the chunk's summary. -/
theorem hierarchical_summary_terminates (oracle : List Message → String)
    (chunk_tokens : Nat) (messages : List Message)
    (hne : messages ≠ [])
    (H : ∀ m', Reaches oracle chunk_tokens messages m' →
      ∀ c ∈ chunk_messages m' chunk_tokens,
        (oracle c).length < contentLen c) :
    ∃ fuel s,
      hierarchical_summary oracle chunk_tokens fuel messages = some s ∧
        (∀ c, chunk_messages messages chunk_tokens = [c] → s = oracle c) := by
  by_cases h1 : ∃ c, chunk_messages messages chunk_tokens = [c]
  · obtain ⟨c, hc⟩ := h1
    refine ⟨1, oracle c, by simp [hierarchical_summary, hc], ?_⟩
    intro c' hc'
    rw [hc] at hc'
    cases hc'
    rfl
  · obtain ⟨fuel, s, hs⟩ :=
      hierarchical_summary_aux oracle chunk_tokens (contentLen messages + 1)
        messages (by omega) H
    exact ⟨fuel, s, hs, fun c hc => absurd ⟨c, hc⟩ h1⟩

/-- Concrete single message for the C4 witness. -/
def msgHi : Message := { role := "user", content := "hi" }

/-- Concrete maximally-shrinking oracle for the C4 witness. -/
def oracleShrink : List Message → String := fun _ => ""

/-- Witness for C4: a one-record input under a strictly shrinking oracle
reaches the base case and returns that chunk's summary. -/
theorem hierarchical_summary_terminates_witness :
    ([msgHi] : List Message) ≠ [] ∧
      ∃ fuel s,
        hierarchical_summary oracleShrink 1500 fuel [msgHi] = some s ∧
          (∀ c, chunk_messages [msgHi] 1500 = [c] → s = oracleShrink c) := by
  have hch : chunk_messages [msgHi] 1500 = [[msgHi]] := rfl
  refine ⟨by simp [msgHi], ?_⟩
  apply hierarchical_summary_terminates oracleShrink 1500 [msgHi]
    (by simp [msgHi])
  intro m' hr
  cases hr with
  | refl =>
      intro c hcmem
      rw [hch] at hcmem
      have hc : c = [msgHi] := by simpa using hcmem
      subst hc
      decide
  | step =>
      rename_i hlen hr2
      exact absurd (by rw [hch]; rfl) hlen
